import Mathlib

/-!
Shallow embedding of `logparser.js` (iotux/log-parser).

JavaScript strings are modelled as `List Char` (`JStr`); the helper
functions (`jsTrim`, `jsSubstring`, `jsIndexOf`, ...) model the
corresponding ECMAScript string operations used by the source.  Machine
doubles are modelled by exact rationals in lowest terms (`JSRat`; the
claims only exercise exactly representable decimal values, and
numeric-precision beyond doubles is an explicit non-goal of the
program).
-/

namespace LogParser

/-- JavaScript strings, modelled as lists of characters. -/
abbrev JStr := List Char

/-- Embed a Lean string literal as a `JStr`. -/
def js (s : String) : JStr := s.data

/-- The double-quote character. -/
def dq : Char := Char.ofNat 34

/-- The single-quote character. -/
def sq : Char := Char.ofNat 39

/-- Whitespace recognised by ECMAScript `trim` / `Number` (the common
whitespace and line-terminator characters). -/
def jsIsWhite (c : Char) : Bool :=
  c == ' ' || c == Char.ofNat 9 || c == Char.ofNat 10 || c == Char.ofNat 11 ||
  c == Char.ofNat 12 || c == Char.ofNat 13 || c == Char.ofNat 0xa0 ||
  c == Char.ofNat 0x2028 || c == Char.ofNat 0x2029 || c == Char.ofNat 0xfeff

/-- `String.prototype.trim`: drop whitespace from both ends. -/
def jsTrim (l : JStr) : JStr :=
  ((l.dropWhile jsIsWhite).reverse.dropWhile jsIsWhite).reverse

/-- `String.prototype.startsWith`: `jsStartsWith s pat` is true when `pat`
is an initial segment of `s`. -/
def jsStartsWith : JStr → JStr → Bool
  | _, [] => true
  | [], _ :: _ => false
  | a :: as, b :: bs => a == b && jsStartsWith as bs

/-- `String.prototype.endsWith`. -/
def jsEndsWith (s pat : JStr) : Bool :=
  jsStartsWith s.reverse pat.reverse

/-- `String.prototype.indexOf` for a single character: index of the first
occurrence, `none` standing for JavaScript's `-1`. -/
def jsIndexOf : JStr → Char → Option Nat
  | [], _ => none
  | c :: r, ch => if c == ch then some 0 else (jsIndexOf r ch).map (· + 1)

/-- `String.prototype.lastIndexOf` for a single character. -/
def jsLastIndexOf (l : JStr) (c : Char) : Option Nat :=
  (jsIndexOf l.reverse c).map (fun i => l.length - 1 - i)

/-- `String.prototype.substring(a, b)`: clamps both arguments into
`[0, length]` and swaps them when `a > b`, as ECMAScript does. -/
def jsSubstring (l : JStr) (a b : Int) : JStr :=
  let n : Int := l.length
  let a' := (min (max a 0) n).toNat
  let b' := (min (max b 0) n).toNat
  (l.drop (min a' b')).take (max a' b' - min a' b')

/-- `String.prototype.substring(a)` (one-argument form). -/
def jsSubstringFrom (l : JStr) (a : Int) : JStr :=
  jsSubstring l a l.length

/-- Numeric value of a list of decimal digits (empty list gives 0). -/
def digToNat (l : List Char) : Nat :=
  l.foldl (fun a c => 10 * a + (c.toNat - 48)) 0

/-- Numeric value of a list of digits in a given base. -/
def digToNatBase (base : Nat) (l : List Char) : Nat :=
  l.foldl (fun a c =>
    base * a +
      (if c.isDigit then c.toNat - 48
       else if 'a' ≤ c ∧ c ≤ 'f' then c.toNat - 87
       else c.toNat - 55)) 0

/-- An exact rational, kept in lowest terms by `normRat`; stands in for
the finite IEEE doubles (every value the claims exercise is exactly
representable). -/
structure JSRat where
  num : Int
  den : Nat
deriving DecidableEq, Repr

/-- Build a `JSRat` in lowest terms from numerator and denominator. -/
def normRat (n : Int) (d : Nat) : JSRat :=
  if d = 0 then ⟨0, 1⟩
  else
    let g := n.natAbs.gcd d
    ⟨n / (g : Int), d / g⟩

/-- The integer `n` as a `JSRat`. -/
def intRat (n : Int) : JSRat := ⟨n, 1⟩

/-- A JavaScript number that is not `NaN`: either a finite value
(modelled as an exact rational) or a signed infinity. -/
inductive JSNum where
  | finite : JSRat → JSNum
  | inf : Bool → JSNum
deriving DecidableEq, Repr

/-- Scale a `JSRat` by a (possibly negative) power of ten. -/
def applyExp (q : JSRat) (e : Int) : JSRat :=
  if 0 ≤ e then normRat (q.num * (10 : Int) ^ e.toNat) q.den
  else normRat q.num (q.den * 10 ^ (-e).toNat)

/-- Parse an ECMAScript `ExponentPart` (possibly absent); the whole input
must be consumed. -/
def jsExponent : JStr → Option Int
  | [] => some 0
  | c :: r =>
    if c == 'e' || c == 'E' then
      match r with
      | '+' :: ds => if ds ≠ [] && ds.all Char.isDigit then some (digToNat ds) else none
      | '-' :: ds => if ds ≠ [] && ds.all Char.isDigit then some (-(digToNat ds : Int)) else none
      | ds => if ds ≠ [] && ds.all Char.isDigit then some (digToNat ds) else none
    else none

/-- Parse an ECMAScript `StrUnsignedDecimalLiteral` other than
`Infinity`: digits, an optional fraction, an optional exponent. -/
def jsUnsignedDec (l : JStr) : Option JSRat :=
  let ds := l.takeWhile Char.isDigit
  let r1 := l.dropWhile Char.isDigit
  match r1 with
  | '.' :: r2 =>
    let fs := r2.takeWhile Char.isDigit
    let r3 := r2.dropWhile Char.isDigit
    if ds = [] ∧ fs = [] then none
    else (jsExponent r3).map fun e =>
      applyExp (normRat ((digToNat ds : Int) * (10 : Int) ^ fs.length + (digToNat fs : Int))
        (10 ^ fs.length)) e
  | _ =>
    if ds = [] then none
    else (jsExponent r1).map fun e => applyExp (intRat (digToNat ds : Int)) e

/-- Parse an unsigned decimal literal or `Infinity`. -/
def jsUnsigned (l : JStr) : Option JSNum :=
  if l = js "Infinity" then some (JSNum.inf true)
  else (jsUnsignedDec l).map JSNum.finite

/-- Parse an ECMAScript `StrDecimalLiteral` (optional sign). -/
def jsSignedDec : JStr → Option JSNum
  | '+' :: r => jsUnsigned r
  | '-' :: r =>
    (jsUnsigned r).map fun n =>
      match n with
      | JSNum.finite q => JSNum.finite ⟨-q.num, q.den⟩
      | JSNum.inf _ => JSNum.inf false
  | l => jsUnsigned l

/-- Model of the ECMAScript `Number(string)` conversion restricted to the
`StringNumericLiteral` grammar: surrounding whitespace is ignored, the
empty remainder converts to `0`, and the body is a signed decimal
literal, `Infinity`, or an unsigned binary/octal/hex integer literal.
`none` stands for `NaN`. -/
def jsToNumber (s : JStr) : Option JSNum :=
  let t := jsTrim s
  if t = [] then some (JSNum.finite (intRat 0))
  else
    match t with
    | '0' :: c :: r =>
      if c == 'x' || c == 'X' then
        if r ≠ [] && r.all (fun d => d.isDigit || ('a' ≤ d && d ≤ 'f') || ('A' ≤ d && d ≤ 'F')) then
          some (JSNum.finite (intRat (digToNatBase 16 r : Int)))
        else none
      else if c == 'o' || c == 'O' then
        if r ≠ [] && r.all (fun d => '0' ≤ d && d ≤ '7') then
          some (JSNum.finite (intRat (digToNatBase 8 r : Int)))
        else none
      else if c == 'b' || c == 'B' then
        if r ≠ [] && r.all (fun d => d == '0' || d == '1') then
          some (JSNum.finite (intRat (digToNatBase 2 r : Int)))
        else none
      else jsSignedDec t
    | _ => jsSignedDec t

/-- The parsed values produced by the value parser: strings, numbers,
booleans, objects (insertion-ordered key/value lists) and arrays. -/
inductive Value where
  | str : JStr → Value
  | num : JSNum → Value
  | bool : Bool → Value
  | obj : List (JStr × Value) → Value
  | arr : List Value → Value

instance : Inhabited Value := ⟨Value.str []⟩

/-- A parsed record: the own properties of a JavaScript object in
chronological insertion order (first assignment fixes the position,
later assignments overwrite the value in place). -/
abbrev Record := List (JStr × Value)

/-- Does the object have an own property named `k`
(`Object.prototype.hasOwnProperty`)? -/
def recHas (r : Record) (k : JStr) : Bool :=
  r.any (fun kv => kv.1 == k)

/-- Own-property read `rec[k]` (`none` for JavaScript's `undefined`; the
prototype chain is not modelled, no claim exercises inherited names). -/
def recGet (r : Record) (k : JStr) : Option Value :=
  (r.find? (fun kv => kv.1 == k)).map Prod.snd

/-- Property assignment `obj[k] = v` on a plain object: an existing key
keeps its position and gets the new value, a new key is appended. -/
def recInsert (r : Record) (k : JStr) (v : Value) : Record :=
  if recHas r k then r.map (fun kv => if kv.1 == k then (kv.1, v) else kv)
  else r ++ [(k, v)]

/-- `filterValue` (lines 110-127 / 441-453): trim; return quoted text
with one layer of quotes stripped; else a number when `Number(value)` is
not `NaN`; else the booleans; else the trimmed text itself. -/
def filterValue (value : JStr) : Value :=
  let v := jsTrim value
  if (jsStartsWith v [dq] && jsEndsWith v [dq]) ||
     (jsStartsWith v [sq] && jsEndsWith v [sq]) then
    Value.str (jsSubstring v 1 ((v.length : Int) - 1))
  else
    match jsToNumber v with
    | some n => Value.num n
    | none =>
      if v = js "true" then Value.bool true
      else if v = js "false" then Value.bool false
      else Value.str v

/-- Scanner state of `splitTopLevel`: emitted parts, current segment,
bracket depth, quote state. -/
structure SplitSt where
  parts : List JStr
  current : JStr
  depth : Int
  inQuotes : Bool
  quoteChar : Char

/-- One character step of `splitTopLevel` (lines 132-170 / 455-485). -/
def splitStep (st : SplitSt) (ch : Char) : SplitSt :=
  if st.inQuotes then
    { st with current := st.current ++ [ch], inQuotes := !(ch == st.quoteChar) }
  else if ch == dq || ch == sq then
    { st with inQuotes := true, quoteChar := ch, current := st.current ++ [ch] }
  else
    let depth' := if ch == '{' || ch == '[' then st.depth + 1
      else if ch == '}' || ch == ']' then st.depth - 1
      else st.depth
    if ch == ',' && depth' == 0 then
      { st with parts := st.parts ++ [jsTrim st.current], current := [], depth := depth' }
    else
      { st with current := st.current ++ [ch], depth := depth' }

/-- Run the `splitTopLevel` scanner over a whole string. -/
def splitRun (str : JStr) : SplitSt :=
  str.foldl splitStep ⟨[], [], 0, false, ' '⟩

/-- `splitTopLevel`: split on commas at depth 0 outside quotes; each part
is trimmed; the trailing segment is kept only when non-empty. -/
def splitTopLevel (str : JStr) : List JStr :=
  let st := splitRun str
  if jsTrim st.current ≠ [] then st.parts ++ [jsTrim st.current] else st.parts

/-! The mutually recursive `parseValue` / `parseObject` / `parseArray`
(lines 176-233 / 487-530).  The recursion is expressed in open-recursion
style: each `...Go` function is the literal body of its JavaScript
counterpart with the recursive entry point abstracted as `pv`, and
`parseValueF` ties the knot, spending one unit of fuel per `parseValue`
call.  The fuel only bounds the recursion depth: `parseValueF_isSome`
below shows `length + 1` always suffices, which is the termination
argument for the JavaScript original. -/

/-- The `for (let part of parts)` loop of `parseObject`: skip fragments
without a `:`, otherwise split at the first `:`, strip one layer of
quotes from the key, parse the value with `pv`, assign. -/
def objLoopGo (pv : JStr → Option Value) : List JStr → Record → Option Record
  | [], acc => some acc
  | part :: rest, acc =>
    match jsIndexOf part ':' with
    | none => objLoopGo pv rest acc
    | some colonIndex =>
      let key0 := jsTrim (jsSubstring part 0 (colonIndex : Int))
      let valueStr := jsTrim (jsSubstringFrom part ((colonIndex : Int) + 1))
      let key :=
        if (jsStartsWith key0 [dq] && jsEndsWith key0 [dq]) ||
           (jsStartsWith key0 [sq] && jsEndsWith key0 [sq]) then
          jsSubstring key0 1 ((key0.length : Int) - 1)
        else key0
      match pv valueStr with
      | none => none
      | some v => objLoopGo pv rest (recInsert acc key v)

/-- The interior of a bracketed fragment, shared by `parseObject` and
`parseArray`: trim, strip one leading `o`, strip from the last `c` when
the fragment ends with `c`, trim again. -/
def stripWrap (o c : Char) (str : JStr) : JStr :=
  let inner0 := jsTrim str
  let inner1 := if jsStartsWith inner0 [o] then jsSubstringFrom inner0 1 else inner0
  let inner2 :=
    if jsEndsWith inner1 [c] then
      jsSubstring inner1 0 (((jsLastIndexOf inner1 c).getD 0 : Nat) : Int)
    else inner1
  jsTrim inner2

/-- `parseObject`: strip one leading `{` and one trailing `}`, split the
interior at top-level commas, and fold the key/value fragments. -/
def parseObjectGo (pv : JStr → Option Value) (str : JStr) : Option Record :=
  if stripWrap '{' '}' str = [] then some []
  else objLoopGo pv (splitTopLevel (stripWrap '{' '}' str)) []

/-- The element loop of `parseArray`. -/
def arrLoopGo (pv : JStr → Option Value) : List JStr → List Value → Option (List Value)
  | [], acc => some acc
  | part :: rest, acc =>
    match pv part with
    | none => none
    | some v => arrLoopGo pv rest (acc ++ [v])

/-- `parseArray`: strip one leading `[` and one trailing `]`, split at
top-level commas, parse every fragment. -/
def parseArrayGo (pv : JStr → Option Value) (str : JStr) : Option (List Value) :=
  if stripWrap '[' ']' str = [] then some []
  else arrLoopGo pv (splitTopLevel (stripWrap '[' ']' str)) []

/-- `parseValue`: trim, dispatch on the leading character.  One unit of
fuel is spent per call; `none` only ever means "fuel exhausted". -/
def parseValueF : Nat → JStr → Option Value
  | 0, _ => none
  | fuel + 1, str =>
    let s := jsTrim str
    if jsStartsWith s ['{'] then (parseObjectGo (parseValueF fuel) s).map Value.obj
    else if jsStartsWith s ['['] then (parseArrayGo (parseValueF fuel) s).map Value.arr
    else some (filterValue s)

/-- `parseObject` at a given recursion-depth budget. -/
def parseObjectF (fuel : Nat) (s : JStr) : Option Record :=
  parseObjectGo (parseValueF fuel) s

/-- `parseArray` at a given recursion-depth budget. -/
def parseArrayF (fuel : Nat) (s : JStr) : Option (List Value) :=
  parseArrayGo (parseValueF fuel) s

/-- `parseValue` with the always-sufficient fuel `length + 1`. -/
def parseValue (s : JStr) : Value :=
  (parseValueF (s.length + 1) s).getD (Value.str [])

/-- `parseObject` with always-sufficient fuel. -/
def parseObject (s : JStr) : Record :=
  (parseObjectF (s.length + 1) s).getD []

/-- `parseArray` with always-sufficient fuel. -/
def parseArray (s : JStr) : List Value :=
  (parseArrayF (s.length + 1) s).getD []

/-! The record extractor (lines 253-277 / 550-578). -/

/-- State of the record extractor: emitted blocks, the in-flight buffer,
the `recordStarted` flag and the running brace depth. -/
structure ExtState where
  blocks : List JStr
  currentBlock : JStr
  recordStarted : Bool
  braceDepth : Int
deriving DecidableEq, Repr

/-- Contribution of one character to the brace depth. -/
def braceDelta (c : Char) : Int :=
  if c == '{' then 1 else if c == '}' then -1 else 0

/-- Contribution of a whole string to the brace depth (the count of `{`
minus the count of `}`; quotes are deliberately ignored, as in the
source). -/
def lineDelta : JStr → Int
  | [] => 0
  | c :: r => braceDelta c + lineDelta r

/-- One line of the extractor loop: a non-recording state starts a
record when the line begins with the (non-empty, i.e. truthy) keyword;
a recording state appends the line and updates the depth; a recording
state at depth 0 emits the buffer and resets. -/
def extractStep (kw : JStr) (st : ExtState) (line : JStr) : ExtState :=
  let st1 :=
    if !st.recordStarted && !kw.isEmpty && jsStartsWith line kw then
      match jsIndexOf line '{' with
      | some idx =>
        let cb := jsSubstringFrom line (idx : Int)
        { st with recordStarted := true, currentBlock := cb,
                  braceDepth := st.braceDepth + lineDelta cb }
      | none => { st with recordStarted := true }
    else if st.recordStarted then
      { st with currentBlock := st.currentBlock ++ '\n' :: line,
                braceDepth := st.braceDepth + lineDelta line }
    else st
  if st1.recordStarted && st1.braceDepth == 0 then
    { st1 with blocks := st1.blocks ++ [st1.currentBlock],
               currentBlock := [], recordStarted := false }
  else st1

/-- The extractor's initial state. -/
def extractInit : ExtState := ⟨[], [], false, 0⟩

/-- Run the extractor over a full line stream. -/
def extractRun (kw : JStr) (lines : List JStr) : ExtState :=
  lines.foldl (extractStep kw) extractInit

/-- `extractRecords`: the record blocks completed by the end of the
stream (an in-flight buffer at end of input is dropped). -/
def extractRecords (lines : List JStr) (kw : JStr) : List JStr :=
  (extractRun kw lines).blocks

/-- The driver's parsing stage: each extracted block is handed to
`parseObject` (both variants, lines 284-285 / 581-582).  Filtering and
output stages are applied downstream of this list. -/
def runPipeline (lines : List JStr) (kw : JStr) : List Record :=
  (extractRecords lines kw).map parseObject

/-! Observable key order of a JavaScript object
(`OrdinaryOwnPropertyKeys`): array-index keys first in ascending numeric
order, then the other string keys in insertion order.  This is the
order seen by `Object.keys`, `JSON.stringify`, `console.table`, … -/

/-- Is the key a canonical array-index string: non-empty, digits only,
no leading zero (except `"0"`), value below `2^32 - 1`? -/
def isArrayIndexKey (k : JStr) : Bool :=
  !k.isEmpty && k.all Char.isDigit && (k == ['0'] || !(k.headD ' ' == '0')) &&
  digToNat k < 4294967295

/-- Insert a numeric key into a list sorted by numeric value. -/
def insertKeyNum (k : JStr) : List JStr → List JStr
  | [] => [k]
  | x :: xs => if digToNat k ≤ digToNat x then k :: x :: xs else x :: insertKeyNum k xs

/-- Sort array-index keys by ascending numeric value. -/
def sortKeysNum (l : List JStr) : List JStr :=
  l.foldr insertKeyNum []

/-- Iteration order of a record's keys under JavaScript object
semantics. -/
def jsKeys (r : Record) : List JStr :=
  let ks := r.map Prod.fst
  sortKeysNum (ks.filter isArrayIndexKey) ++ ks.filter (fun k => !isArrayIndexKey k)

/-! String conversion of values, used by the `-D` composite keys
(`array.join("|")` applies `ToString` to every element). -/

/-- `ToString` for a number.  Exact for integers; for non-integral
finite values a fixed-precision decimal expansion stands in for the
shortest-round-trip formatting of doubles (no claim exercises that
case). -/
def jsNumToStr (n : JSNum) : JStr :=
  match n with
  | JSNum.inf true => js "Infinity"
  | JSNum.inf false => js "-Infinity"
  | JSNum.finite q =>
    let sign : JStr := if q.num < 0 then ['-'] else []
    if q.den = 1 then sign ++ Nat.toDigits 10 q.num.natAbs
    else
      let scaled := q.num.natAbs * 10 ^ (20 : Nat) / q.den
      let digits := Nat.toDigits 10 scaled
      let pad := List.replicate (21 - digits.length) '0' ++ digits
      let ip := pad.take (pad.length - 20)
      let fp := (pad.drop (pad.length - 20)).reverse.dropWhile (· == '0') |>.reverse
      sign ++ ip ++ '.' :: fp

mutual

/-- `ToString` for a value: strings are themselves, booleans print as
`true`/`false`, plain objects as `[object Object]`, arrays join their
elements with commas (`Array.prototype.join(",")`). -/
def jsValueToStr : Value → JStr
  | Value.str s => s
  | Value.num n => jsNumToStr n
  | Value.bool b => if b then js "true" else js "false"
  | Value.obj _ => js "[object Object]"
  | Value.arr vs => jsValuesJoin vs

/-- Join a list of values with commas, `ToString`-ing each element. -/
def jsValuesJoin : List Value → JStr
  | [] => []
  | [v] => jsValueToStr v
  | v :: rest => jsValueToStr v ++ ',' :: jsValuesJoin rest

end

/-! The two `-D` composite-duplicate filters found in the repository. -/

/-- Composite key of the first variant (lines 300-305):
`discardKeys.map(k => rec[k] !== undefined ? rec[k] : "").join("|")`. -/
def compositeV1 (ks : List JStr) (rec : Record) : JStr :=
  List.intercalate ['|'] (ks.map (fun k =>
    match recGet rec k with
    | some v => jsValueToStr v
    | none => []))

/-- First variant of `-D` filtering (lines 300-305): a record is dropped
when its composite key is in the set of all composites seen so far,
anywhere earlier in the stream. -/
def dedupCompositeSet (ks : List JStr) (recs : List Record) : List Record :=
  (recs.foldl (fun (acc : List Record × List JStr) rec =>
    let c := compositeV1 ks rec
    if acc.2.contains c then acc
    else (acc.1 ++ [rec], acc.2 ++ [c])) ([], [])).1

/-- Composite key of the second variant (lines 606-607), evaluated when
every discard key is an own property:
`discardKeys.map(k => rec[k]).join("|")`. -/
def compositeV2 (ks : List JStr) (rec : Record) : JStr :=
  List.intercalate ['|'] (ks.map (fun k => jsValueToStr ((recGet rec k).getD (Value.str []))))

/-- One record of the second variant's `-D` loop (lines 601-618): keep
the record unless its composite equals the immediately preceding
composite; records missing one of the keys are always kept and reset
the remembered composite to `null`. -/
def dedupConsecutiveStep (ks : List JStr) (acc : List Record × Option JStr)
    (rec : Record) : List Record × Option JStr :=
  if ks.all (fun k => recHas rec k) then
    let composite := compositeV2 ks rec
    ((if some composite ≠ acc.2 then acc.1 ++ [rec] else acc.1), some composite)
  else (acc.1 ++ [rec], none)

/-- Second variant of `-D` filtering (lines 601-618): consecutive-only
composite duplicate elimination. -/
def dedupConsecutive (ks : List JStr) (recs : List Record) : List Record :=
  (recs.foldl (dedupConsecutiveStep ks) ([], none)).1

/-! A well-formedness predicate on line streams, used to state that `N`
complete records yield exactly `N` blocks (claim C3). -/

/-- Check the running depths of a record's continuation lines: the depth
is non-zero at every internal line boundary (the record has not closed)
and returns to exactly zero at the last line. -/
def segDepthsOk : Int → List JStr → Bool
  | d, [] => d == 0
  | d, l :: rest => (d != 0) && segDepthsOk (d + lineDelta l) rest

/-- A complete record segment: the first line is trigger-prefixed and
contains a `{`, and the brace depth closes exactly at the segment's last
line. -/
def segComplete (kw : JStr) (seg : List JStr) : Bool :=
  match seg with
  | [] => false
  | first :: rest =>
    !kw.isEmpty && jsStartsWith first kw &&
    (match jsIndexOf first '{' with
     | none => false
     | some idx => segDepthsOk (lineDelta (jsSubstringFrom first (idx : Int))) rest)

/-- Would this line trigger a new record from a non-recording state? -/
def triggers (kw line : JStr) : Bool :=
  !kw.isEmpty && jsStartsWith line kw

/-- A line stream consisting of `n` complete, non-overlapping record
segments interleaved with non-trigger junk lines. -/
inductive StreamN (kw : JStr) : List JStr → Nat → Prop
  | nil : StreamN kw [] 0
  | junk {line rest n} : triggers kw line = false → StreamN kw rest n →
      StreamN kw (line :: rest) n
  | seg {seg rest n} : segComplete kw seg = true → StreamN kw rest n →
      StreamN kw (seg ++ rest) (n + 1)

/-! ### Facts about the string helpers -/

theorem dropWhile_head_not (p : Char → Bool) (l : JStr) :
    l.dropWhile p = [] ∨ ∃ c t, l.dropWhile p = c :: t ∧ p c = false := by
  induction l with
  | nil => exact Or.inl rfl
  | cons a l ih =>
    by_cases h : p a
    · simpa [List.dropWhile_cons, h] using ih
    · exact Or.inr ⟨a, l, by simp [List.dropWhile_cons, h], by simpa using h⟩

theorem dropWhile_concat_not (p : Char → Bool) (xs : JStr) (c : Char) (hc : p c = false) :
    ∃ ys, List.dropWhile p (xs ++ [c]) = ys ++ [c] ∧
      (ys = [] ∨ ∃ d u, ys = d :: u ∧ p d = false) := by
  induction xs with
  | nil => exact ⟨[], by simp [List.dropWhile_cons, hc], Or.inl rfl⟩
  | cons a rest ih =>
    by_cases h : p a
    · obtain ⟨ys, h1, h2⟩ := ih
      exact ⟨ys, by simp [List.dropWhile_cons, h, h1], h2⟩
    · exact ⟨a :: rest, by simp [List.dropWhile_cons, h], Or.inr ⟨a, rest, rfl, by simpa using h⟩⟩

/-- Trimming is idempotent. -/
theorem jsTrim_idem (l : JStr) : jsTrim (jsTrim l) = jsTrim l := by
  rcases dropWhile_head_not jsIsWhite l with h | ⟨c, t, h, hc⟩
  · have h0 : jsTrim l = [] := by unfold jsTrim; rw [h]; rfl
    rw [h0]; rfl
  · obtain ⟨ys, hB, hys⟩ := dropWhile_concat_not jsIsWhite t.reverse c hc
    have hm : jsTrim l = c :: ys.reverse := by
      unfold jsTrim
      rw [h, List.reverse_cons, hB, List.reverse_append]
      simp
    have hdrop : List.dropWhile jsIsWhite (ys ++ [c]) = ys ++ [c] := by
      rcases hys with rfl | ⟨d, u, rfl, hd⟩
      · simp [List.dropWhile_cons, hc]
      · simp [List.dropWhile_cons, hd]
    rw [hm]
    unfold jsTrim
    rw [List.dropWhile_cons, if_neg (by simp [hc]), List.reverse_cons,
      List.reverse_reverse, hdrop, List.reverse_append]
    simp

/-- Trimming does not lengthen a string. -/
theorem jsTrim_length_le (l : JStr) : (jsTrim l).length ≤ l.length := by
  unfold jsTrim
  calc ((l.dropWhile jsIsWhite).reverse.dropWhile jsIsWhite).reverse.length
      ≤ (l.dropWhile jsIsWhite).reverse.length := by
        rw [List.length_reverse]
        exact (List.dropWhile_suffix _).length_le
    _ ≤ l.length := by
        rw [List.length_reverse]
        exact (List.dropWhile_suffix _).length_le

/-- A string of whitespace trims to the empty string. -/
theorem jsTrim_all_white (l : JStr) (h : l.all jsIsWhite = true) : jsTrim l = [] := by
  have h1 : l.dropWhile jsIsWhite = [] := by
    rw [List.dropWhile_eq_nil_iff]
    intro x hx
    exact List.all_eq_true.mp h x hx
  unfold jsTrim
  rw [h1]
  rfl

/-- `jsIndexOf` returns an index inside the string. -/
theorem jsIndexOf_lt_length (l : JStr) (c : Char) (i : Nat) (h : jsIndexOf l c = some i) :
    i < l.length := by
  induction l generalizing i with
  | nil => simp [jsIndexOf] at h
  | cons a r ih =>
    rw [jsIndexOf] at h
    by_cases ha : (a == c) = true
    · rw [if_pos ha] at h
      cases h
      simp
    · rw [if_neg ha] at h
      cases hr : jsIndexOf r c with
      | none => rw [hr] at h; simp at h
      | some j =>
        rw [hr] at h
        simp at h
        have := ih j hr
        simp only [List.length_cons]
        omega

/-- A substring is never longer than the string. -/
theorem jsSubstring_length_le (l : JStr) (a b : Int) :
    (jsSubstring l a b).length ≤ l.length := by
  unfold jsSubstring
  simp only [List.length_take, List.length_drop]
  omega

/-- Length of the one-argument substring at a valid natural index. -/
theorem jsSubstringFrom_length (l : JStr) (k : Nat) (hk : k ≤ l.length) :
    (jsSubstringFrom l (k : Int)).length = l.length - k := by
  unfold jsSubstringFrom jsSubstring
  simp only [List.length_take, List.length_drop]
  omega

/-! ### Facts about `splitTopLevel` -/

theorem splitStep_parts (st : SplitSt) (ch : Char) :
    ((splitStep st ch).parts = st.parts ∨
      (splitStep st ch).parts = st.parts ++ [jsTrim st.current]) ∧
    (splitStep st ch).current.length ≤ st.current.length + 1 := by
  unfold splitStep
  by_cases h1 : st.inQuotes = true
  · simp [h1]
  · by_cases h2 : (ch == dq || ch == sq) = true
    · simp [h1, h2]
    · simp only [h1, h2, Bool.false_eq_true, if_false]
      repeat' split
      all_goals simp

theorem splitRun_bound (l : JStr) (st : SplitSt) :
    ((List.foldl splitStep st l).current.length ≤ st.current.length + l.length) ∧
    (∀ p ∈ (List.foldl splitStep st l).parts,
      p ∈ st.parts ∨ ∃ x : JStr, p = jsTrim x ∧ x.length ≤ st.current.length + l.length) := by
  induction l generalizing st with
  | nil =>
    refine ⟨by simp, ?_⟩
    intro p hp
    exact Or.inl (by simpa using hp)
  | cons ch l ih =>
    have hstep := splitStep_parts st ch
    have ihs := ih (splitStep st ch)
    rw [List.foldl_cons]
    refine ⟨?_, ?_⟩
    · have := ihs.1
      simp only [List.length_cons]
      omega
    · intro p hp
      rcases ihs.2 p hp with hold | ⟨x, rfl, hx⟩
      · rcases hstep.1 with he | he
        · rw [he] at hold
          exact Or.inl hold
        · rw [he] at hold
          rcases List.mem_append.mp hold with hin | hin
          · exact Or.inl hin
          · have hpe : p = jsTrim st.current := by simpa using hin
            exact Or.inr ⟨st.current, hpe, by simp⟩
      · refine Or.inr ⟨x, rfl, ?_⟩
        have := hstep.2
        simp only [List.length_cons]
        omega

theorem splitRun_parts_trim (s : JStr) : ∀ p ∈ (splitRun s).parts, jsTrim p = p := by
  intro p hp
  rcases (splitRun_bound s ⟨[], [], 0, false, ' '⟩).2 p (by simpa [splitRun] using hp) with
    h0 | ⟨x, rfl, _⟩
  · simp at h0
  · exact jsTrim_idem x

theorem splitRun_parts_length (s : JStr) : ∀ p ∈ (splitRun s).parts, p.length ≤ s.length := by
  intro p hp
  rcases (splitRun_bound s ⟨[], [], 0, false, ' '⟩).2 p (by simpa [splitRun] using hp) with
    h0 | ⟨x, rfl, hx⟩
  · simp at h0
  · have := jsTrim_length_le x
    simpa using le_trans this (by simpa using hx)

theorem splitRun_current_length (s : JStr) : (splitRun s).current.length ≤ s.length := by
  have := (splitRun_bound s ⟨[], [], 0, false, ' '⟩).1
  simpa [splitRun] using this

/-- Every part emitted by `splitTopLevel` is already trimmed. -/
theorem splitTopLevel_parts_trim (s : JStr) : ∀ p ∈ splitTopLevel s, jsTrim p = p := by
  intro p hp
  unfold splitTopLevel at hp
  by_cases hlast : jsTrim (splitRun s).current ≠ []
  · rw [if_pos hlast] at hp
    rcases List.mem_append.mp hp with hin | hin
    · exact splitRun_parts_trim s p hin
    · have hpe : p = jsTrim (splitRun s).current := by simpa using hin
      rw [hpe]
      exact jsTrim_idem _
  · rw [if_neg hlast] at hp
    exact splitRun_parts_trim s p hp

/-- No part emitted by `splitTopLevel` is longer than the input. -/
theorem splitTopLevel_parts_length (s : JStr) : ∀ p ∈ splitTopLevel s, p.length ≤ s.length := by
  intro p hp
  unfold splitTopLevel at hp
  by_cases hlast : jsTrim (splitRun s).current ≠ []
  · rw [if_pos hlast] at hp
    rcases List.mem_append.mp hp with hin | hin
    · exact splitRun_parts_length s p hin
    · have hpe : p = jsTrim (splitRun s).current := by simpa using hin
      rw [hpe]
      exact le_trans (jsTrim_length_le _) (splitRun_current_length s)
  · rw [if_neg hlast] at hp
    exact splitRun_parts_length s p hp

/-! ### Totality of the value parser -/

theorem objLoopGo_isSome (pv : JStr → Option Value) (B : Nat)
    (hpv : ∀ s : JStr, s.length < B → (pv s).isSome = true) :
    ∀ parts acc, (∀ p ∈ parts, p.length ≤ B) → (objLoopGo pv parts acc).isSome = true := by
  intro parts
  induction parts with
  | nil => intro acc _; simp [objLoopGo]
  | cons part rest ih =>
    intro acc hlen
    cases hidx : jsIndexOf part ':' with
    | none =>
      simp only [objLoopGo, hidx]
      exact ih acc (fun p hp => hlen p (List.mem_cons_of_mem _ hp))
    | some ci =>
      have hci : ci < part.length := jsIndexOf_lt_length _ _ _ hidx
      have hplen : part.length ≤ B := hlen part (List.mem_cons_self part rest)
      have hvs : (jsTrim (jsSubstringFrom part ((ci : Int) + 1))).length < B := by
        have hcast : ((ci : Int) + 1) = ((ci + 1 : Nat) : Int) := by push_cast; ring
        have h2 := jsTrim_length_le (jsSubstringFrom part ((ci : Int) + 1))
        have h3 : (jsSubstringFrom part ((ci : Int) + 1)).length = part.length - (ci + 1) := by
          rw [hcast]
          exact jsSubstringFrom_length part (ci + 1) (by omega)
        omega
      obtain ⟨v, hv⟩ := Option.isSome_iff_exists.mp (hpv _ hvs)
      simp only [objLoopGo, hidx, hv]
      exact ih _ (fun p hp => hlen p (List.mem_cons_of_mem _ hp))

theorem arrLoopGo_isSome (pv : JStr → Option Value) (B : Nat)
    (hpv : ∀ s : JStr, s.length < B → (pv s).isSome = true) :
    ∀ parts acc, (∀ p ∈ parts, p.length < B) → (arrLoopGo pv parts acc).isSome = true := by
  intro parts
  induction parts with
  | nil => intro acc _; simp [arrLoopGo]
  | cons part rest ih =>
    intro acc hlen
    obtain ⟨v, hv⟩ := Option.isSome_iff_exists.mp
      (hpv part (hlen part (List.mem_cons_self part rest)))
    simp only [arrLoopGo, hv]
    exact ih _ (fun p hp => hlen p (List.mem_cons_of_mem _ hp))

/-- A non-empty-pattern `startsWith` forces a non-empty string. -/
theorem jsStartsWith_single_length (l : JStr) (c : Char) (h : jsStartsWith l [c] = true) :
    1 ≤ l.length := by
  cases l with
  | nil => simp [jsStartsWith] at h
  | cons a r => simp

theorem jsSubstringFrom_length_le (l : JStr) (a : Int) :
    (jsSubstringFrom l a).length ≤ l.length :=
  jsSubstring_length_le l a l.length

/-- The stripped interior is never longer than the input. -/
theorem stripWrap_length_le (o c : Char) (s : JStr) :
    (stripWrap o c s).length ≤ s.length := by
  have hb : (if jsStartsWith (jsTrim s) [o] = true then jsSubstringFrom (jsTrim s) 1
      else jsTrim s).length ≤ s.length := by
    split
    · exact le_trans (jsSubstringFrom_length_le _ _) (jsTrim_length_le s)
    · exact jsTrim_length_le s
  simp only [stripWrap]
  generalize hI : (if jsStartsWith (jsTrim s) [o] = true then jsSubstringFrom (jsTrim s) 1
    else jsTrim s) = I1 at hb ⊢
  refine le_trans (jsTrim_length_le _) ?_
  split
  · exact le_trans (jsSubstring_length_le _ _ _) hb
  · exact hb

/-- When the trimmed input begins with the opening bracket, stripping it
shortens the interior strictly below the trimmed length. -/
theorem stripWrap_length_lt (o c : Char) (s : JStr)
    (h : jsStartsWith (jsTrim s) [o] = true) :
    (stripWrap o c s).length ≤ (jsTrim s).length - 1 := by
  have h1 : 1 ≤ (jsTrim s).length := jsStartsWith_single_length _ _ h
  have h2 : (jsSubstringFrom (jsTrim s) 1).length = (jsTrim s).length - 1 := by
    have hcast : ((1 : Int)) = ((1 : Nat) : Int) := rfl
    rw [hcast]
    exact jsSubstringFrom_length (jsTrim s) 1 h1
  simp only [stripWrap]
  rw [if_pos h]
  generalize hI : jsSubstringFrom (jsTrim s) 1 = I1 at h2 ⊢
  refine le_trans (jsTrim_length_le _) ?_
  split
  · exact le_trans (jsSubstring_length_le _ _ _) (le_of_eq h2)
  · exact le_of_eq h2

theorem parseObjectGo_isSome (pv : JStr → Option Value) (B : Nat)
    (hpv : ∀ s : JStr, s.length < B → (pv s).isSome = true)
    (s : JStr) (hs : s.length ≤ B) : (parseObjectGo pv s).isSome = true := by
  rw [parseObjectGo]
  split
  · simp
  · apply objLoopGo_isSome pv B hpv
    intro p hp
    have hb := splitTopLevel_parts_length _ p hp
    have hw := stripWrap_length_le '{' '}' s
    omega

theorem parseArrayGo_isSome (pv : JStr → Option Value) (B : Nat)
    (hpv : ∀ s : JStr, s.length < B → (pv s).isSome = true)
    (s : JStr) (hstart : jsStartsWith (jsTrim s) ['['] = true)
    (hs : s.length ≤ B) : (parseArrayGo pv s).isSome = true := by
  rw [parseArrayGo]
  split
  · simp
  · apply arrLoopGo_isSome pv B hpv
    intro p hp
    have hb := splitTopLevel_parts_length _ p hp
    have hw := stripWrap_length_lt '[' ']' s hstart
    have h1 : 1 ≤ (jsTrim s).length := jsStartsWith_single_length _ _ hstart
    have h2 : (jsTrim s).length ≤ s.length := jsTrim_length_le s
    omega

/-- Fuel `length + 1` always suffices: the JavaScript recursion
terminates on every input. -/
theorem parseValueF_isSome :
    ∀ (fuel : Nat) (s : JStr), s.length < fuel → (parseValueF fuel s).isSome = true := by
  intro fuel
  induction fuel with
  | zero => intro s h; omega
  | succ fuel ih =>
    intro s h
    have ht : (jsTrim s).length ≤ fuel := le_trans (jsTrim_length_le s) (by omega)
    simp only [parseValueF]
    split
    · obtain ⟨r, hr⟩ := Option.isSome_iff_exists.mp
        (parseObjectGo_isSome (parseValueF fuel) fuel ih _ ht)
      simp [hr]
    · split
      · next hstart =>
        have htt : jsStartsWith (jsTrim (jsTrim s)) ['['] = true := by
          rw [jsTrim_idem]
          exact hstart
        obtain ⟨r, hr⟩ := Option.isSome_iff_exists.mp
          (parseArrayGo_isSome (parseValueF fuel) fuel ih _ htt ht)
        simp [hr]
      · simp

/-! ### Facts about the record extractor -/

theorem lineDelta_append (a b : JStr) : lineDelta (a ++ b) = lineDelta a + lineDelta b := by
  induction a with
  | nil => simp [lineDelta]
  | cons c r ih => simp [lineDelta, ih]; ring

/-- The brace delta is the count of `{` minus the count of `}`. -/
theorem lineDelta_eq_counts (l : JStr) :
    lineDelta l = (l.count '{' : Int) - (l.count '}' : Int) := by
  induction l with
  | nil => simp [lineDelta]
  | cons c r ih =>
    rw [lineDelta, ih, List.count_cons, List.count_cons]
    by_cases h1 : (c == '{') = true
    · have h2 : (c == '}') = false := by
        have := beq_iff_eq.mp h1
        subst this
        rfl
      simp [braceDelta, h1, h2]
      ring
    · by_cases h2 : (c == '}') = true
      · simp [braceDelta, h1, h2]
        ring
      · simp [braceDelta, h1, h2]

/-- A non-recording line that does not trigger leaves the state alone. -/
theorem extractStep_notrigger (kw : JStr) (st : ExtState) (line : JStr)
    (hrs : st.recordStarted = false)
    (hnt : (!kw.isEmpty && jsStartsWith line kw) = false) :
    extractStep kw st line = st := by
  simp [extractStep, hrs, hnt]

/-- A recording line that closes the braces emits the buffer. -/
theorem extractStep_rec_emit (kw : JStr) (st : ExtState) (line : JStr)
    (hrs : st.recordStarted = true)
    (hd : st.braceDepth + lineDelta line = 0) :
    extractStep kw st line =
      ⟨st.blocks ++ [st.currentBlock ++ '\n' :: line], [], false, 0⟩ := by
  simp [extractStep, hrs, hd]

/-- A recording line that leaves braces open keeps recording. -/
theorem extractStep_rec_cont (kw : JStr) (st : ExtState) (line : JStr)
    (hrs : st.recordStarted = true)
    (hd : st.braceDepth + lineDelta line ≠ 0) :
    extractStep kw st line =
      ⟨st.blocks, st.currentBlock ++ '\n' :: line, true, st.braceDepth + lineDelta line⟩ := by
  simp [extractStep, hrs, hd]

/-- A trigger line containing a `{` starts the buffer at that `{` and
emits at once when the line alone closes its braces. -/
theorem extractStep_trigger_some (kw : JStr) (st : ExtState) (line : JStr) (idx : Nat)
    (hrs : st.recordStarted = false)
    (ht : (!kw.isEmpty && jsStartsWith line kw) = true)
    (hidx : jsIndexOf line '{' = some idx) :
    extractStep kw st line =
      (if st.braceDepth + lineDelta (jsSubstringFrom line (idx : Int)) = 0 then
        ⟨st.blocks ++ [jsSubstringFrom line (idx : Int)], [], false,
          st.braceDepth + lineDelta (jsSubstringFrom line (idx : Int))⟩
      else ⟨st.blocks, jsSubstringFrom line (idx : Int), true,
        st.braceDepth + lineDelta (jsSubstringFrom line (idx : Int))⟩) := by
  have ht' : ¬kw = [] ∧ jsStartsWith line kw = true := by simpa using ht
  simp [extractStep, hrs, hidx, ht'.1, ht'.2]

/-- A trigger line with no `{` keeps the old buffer and depth. -/
theorem extractStep_trigger_none (kw : JStr) (st : ExtState) (line : JStr)
    (hrs : st.recordStarted = false)
    (ht : (!kw.isEmpty && jsStartsWith line kw) = true)
    (hidx : jsIndexOf line '{' = none) :
    extractStep kw st line =
      (if st.braceDepth = 0 then ⟨st.blocks ++ [st.currentBlock], [], false, st.braceDepth⟩
      else ⟨st.blocks, st.currentBlock, true, st.braceDepth⟩) := by
  have ht' : ¬kw = [] ∧ jsStartsWith line kw = true := by simpa using ht
  simp [extractStep, hrs, hidx, ht'.1, ht'.2]

theorem band_true {a b : Bool} (h : (a && b) = true) : a = true ∧ b = true := by
  simpa using h

/-- The extractor's state invariant: a non-recording state has an empty
buffer and zero depth, a recording state's depth is the brace delta of
its buffer, and every emitted block has delta zero. -/
def ExtInv (st : ExtState) : Prop :=
  (st.recordStarted = false → st.currentBlock = [] ∧ st.braceDepth = 0) ∧
  (st.recordStarted = true → st.braceDepth = lineDelta st.currentBlock) ∧
  (∀ b ∈ st.blocks, lineDelta b = 0)

theorem extractStep_inv (kw : JStr) (st : ExtState) (line : JStr) (h : ExtInv st) :
    ExtInv (extractStep kw st line) := by
  obtain ⟨h1, h2, h3⟩ := h
  cases hrs : st.recordStarted with
  | true =>
    have hcb := h2 hrs
    by_cases hd : st.braceDepth + lineDelta line = 0
    · rw [extractStep_rec_emit kw st line hrs hd]
      refine ⟨fun _ => ⟨rfl, rfl⟩, fun hfalse => by simp at hfalse, ?_⟩
      intro b hb
      rcases List.mem_append.mp hb with hin | hin
      · exact h3 b hin
      · have hbe : b = st.currentBlock ++ '\n' :: line := by simpa using hin
        rw [hbe]
        have : lineDelta (st.currentBlock ++ '\n' :: line)
            = lineDelta st.currentBlock + lineDelta ('\n' :: line) := lineDelta_append _ _
        rw [this]
        have hnl : lineDelta ('\n' :: line) = lineDelta line := by
          rw [lineDelta, show braceDelta '\n' = 0 from rfl]
          ring
        omega
    · rw [extractStep_rec_cont kw st line hrs hd]
      refine ⟨fun hfalse => by simp at hfalse, fun _ => ?_, h3⟩
      have : lineDelta (st.currentBlock ++ '\n' :: line)
          = lineDelta st.currentBlock + lineDelta ('\n' :: line) := lineDelta_append _ _
      rw [this]
      have hnl : lineDelta ('\n' :: line) = lineDelta line := by
        rw [lineDelta, show braceDelta '\n' = 0 from rfl]
        ring
      dsimp only
      omega
  | false =>
    obtain ⟨hcb, hbd⟩ := h1 hrs
    by_cases ht : (!kw.isEmpty && jsStartsWith line kw) = true
    · cases hidx : jsIndexOf line '{' with
      | some idx =>
        rw [extractStep_trigger_some kw st line idx hrs ht hidx]
        split
        · next hd =>
          refine ⟨fun _ => ⟨rfl, by simpa using hd⟩, fun hfalse => by simp at hfalse, ?_⟩
          intro b hb
          rcases List.mem_append.mp hb with hin | hin
          · exact h3 b hin
          · have hbe : b = jsSubstringFrom line (idx : Int) := by simpa using hin
            rw [hbe]
            omega
        · next hd =>
          exact ⟨fun hfalse => by simp at hfalse, fun _ => by rw [hbd]; ring, h3⟩
      | none =>
        rw [extractStep_trigger_none kw st line hrs ht hidx]
        rw [if_pos hbd]
        refine ⟨fun _ => ⟨rfl, hbd⟩, fun hfalse => by simp at hfalse, ?_⟩
        intro b hb
        rcases List.mem_append.mp hb with hin | hin
        · exact h3 b hin
        · have hbe : b = st.currentBlock := by simpa using hin
          rw [hbe, hcb]
          rfl
    · rw [extractStep_notrigger kw st line hrs (by simpa using ht)]
      exact ⟨h1, h2, h3⟩

theorem extractRun_inv (kw : JStr) (lines : List JStr) : ExtInv (extractRun kw lines) := by
  have hinit : ExtInv extractInit := by
    refine ⟨fun _ => ⟨rfl, rfl⟩, fun hfalse => by simp [extractInit] at hfalse, ?_⟩
    intro b hb
    simp [extractInit] at hb
  unfold extractRun
  induction lines using List.reverseRecOn with
  | nil => exact hinit
  | append_singleton ls l ih =>
    rw [List.foldl_append]
    exact extractStep_inv kw _ l ih

/-- Every emitted block has equal counts of `{` and `}`. -/
theorem extractRecords_balanced (lines : List JStr) (kw : JStr) :
    ∀ b ∈ extractRecords lines kw, b.count '{' = b.count '}' := by
  intro b hb
  have h := (extractRun_inv kw lines).2.2 b hb
  rw [lineDelta_eq_counts] at h
  omega

/-! ### Complete segments produce exactly one block each -/

theorem extractRec_run (kw : JStr) :
    ∀ (rest : List JStr) (bs : List JStr) (cb : JStr) (d : Int), rest ≠ [] →
      segDepthsOk d rest = true →
      ∃ b, List.foldl (extractStep kw) ⟨bs, cb, true, d⟩ rest = ⟨bs ++ [b], [], false, 0⟩ := by
  intro rest
  induction rest with
  | nil => intro bs cb d hne _; exact absurd rfl hne
  | cons l rs ih =>
    intro bs cb d _ hdep
    rw [segDepthsOk] at hdep
    have hdep2 : segDepthsOk (d + lineDelta l) rs = true := (band_true hdep).2
    rw [List.foldl_cons]
    cases rs with
    | nil =>
      have hd0 : d + lineDelta l = 0 := by
        rw [segDepthsOk] at hdep2
        simpa using hdep2
      rw [extractStep_rec_emit kw _ l rfl hd0]
      exact ⟨cb ++ '\n' :: l, rfl⟩
    | cons r rs' =>
      have hdne : d + lineDelta l ≠ 0 := by
        rw [segDepthsOk] at hdep2
        have := (band_true hdep2).1
        simpa using this
      rw [extractStep_rec_cont kw _ l rfl hdne]
      exact ih bs (cb ++ '\n' :: l) (d + lineDelta l) (by simp) hdep2

theorem extractSeg_run (kw : JStr) (seg : List JStr) (hseg : segComplete kw seg = true) :
    ∀ bs : List JStr,
      ∃ b, List.foldl (extractStep kw) ⟨bs, [], false, 0⟩ seg = ⟨bs ++ [b], [], false, 0⟩ := by
  intro bs
  cases seg with
  | nil => rw [segComplete] at hseg; simp at hseg
  | cons first rest =>
    rw [segComplete] at hseg
    have hkw : (!kw.isEmpty) = true := (band_true (band_true hseg).1).1
    have hstart : jsStartsWith first kw = true := (band_true (band_true hseg).1).2
    have hrest := (band_true hseg).2
    cases hidx : jsIndexOf first '{' with
    | none => rw [hidx] at hrest; simp at hrest
    | some idx =>
      have hrest' : segDepthsOk (lineDelta (jsSubstringFrom first (idx : Int))) rest = true := by
        rw [hidx] at hrest
        exact hrest
      have ht : (!kw.isEmpty && jsStartsWith first kw) = true := by
        rw [hkw, hstart]; rfl
      rw [List.foldl_cons, extractStep_trigger_some kw _ first idx rfl ht hidx]
      cases rest with
      | nil =>
        have hd0 : (0 : Int) + lineDelta (jsSubstringFrom first (idx : Int)) = 0 := by
          rw [segDepthsOk] at hrest'
          have : lineDelta (jsSubstringFrom first (idx : Int)) = 0 := by simpa using hrest'
          omega
        rw [if_pos hd0]
        refine ⟨jsSubstringFrom first (idx : Int), ?_⟩
        rw [hd0]
        rfl
      | cons l rs =>
        have hdne : (0 : Int) + lineDelta (jsSubstringFrom first (idx : Int)) ≠ 0 := by
          rw [segDepthsOk] at hrest'
          have := (band_true hrest').1
          intro hcontra
          rw [show lineDelta (jsSubstringFrom first (idx : Int)) = 0 by omega] at this
          simp at this
        rw [if_neg hdne]
        exact extractRec_run kw (l :: rs) bs _ _ (by simp)
          (by simpa using hrest')

/-- A stream of `n` complete segments and junk lines leaves the machine
clean and emits exactly `n` new blocks. -/
theorem streamN_run (kw : JStr) (lines : List JStr) (n : Nat) (h : StreamN kw lines n) :
    ∀ bs : List JStr, ∃ nbs : List JStr,
      List.foldl (extractStep kw) ⟨bs, [], false, 0⟩ lines = ⟨bs ++ nbs, [], false, 0⟩ ∧
      nbs.length = n := by
  induction h with
  | nil => exact fun bs => ⟨[], by simp, rfl⟩
  | junk hline _ ih =>
    intro bs
    rw [List.foldl_cons, extractStep_notrigger kw _ _ rfl (by simpa [triggers] using hline)]
    exact ih bs
  | seg hseg _ ih =>
    intro bs
    rw [List.foldl_append]
    obtain ⟨b, hb⟩ := extractSeg_run kw _ hseg bs
    rw [hb]
    obtain ⟨nbs, hnbs, hlen⟩ := ih (bs ++ [b])
    exact ⟨b :: nbs, by rw [hnbs]; simp, by simp [hlen]⟩

/-- `N` complete, non-overlapping records yield exactly `N` blocks. -/
theorem extractRecords_countN (lines : List JStr) (kw : JStr) (n : Nat)
    (h : StreamN kw lines n) : (extractRecords lines kw).length = n := by
  obtain ⟨nbs, hrun, hlen⟩ := streamN_run kw lines n h []
  unfold extractRecords extractRun extractInit
  rw [hrun]
  simpa using hlen

/-! ### Facts about record assignment and key order -/

theorem find?_map_insert (r : Record) (k : JStr) (v : Value) :
    (r.map (fun kv => if kv.1 == k then (kv.1, v) else kv)).find? (fun kv => kv.1 == k) =
      (r.find? (fun kv => kv.1 == k)).map (fun kv => (kv.1, v)) := by
  induction r with
  | nil => rfl
  | cons kv rest ih =>
    obtain ⟨k1, v1⟩ := kv
    by_cases hk : k1 = k
    · subst hk
      simp only [List.map_cons, if_pos (beq_self_eq_true k1)]
      rw [List.find?_cons_of_pos _ (by simp), List.find?_cons_of_pos _ (by simp)]
      rfl
    · have hkb : (k1 == k) = false := by simpa using hk
      simp only [List.map_cons, hkb, Bool.false_eq_true, if_false]
      rw [List.find?_cons_of_neg _ (by simp [hkb]), List.find?_cons_of_neg _ (by simp [hkb])]
      exact ih

theorem find?_append_none {α : Type} (p : α → Bool) (l1 l2 : List α)
    (h : l1.find? p = none) : (l1 ++ l2).find? p = l2.find? p := by
  induction l1 with
  | nil => rfl
  | cons a rest ih =>
    rw [List.find?_eq_none] at h
    have ha : p a = false := by
      have := h a (List.mem_cons_self a rest)
      simpa using this
    rw [List.cons_append, List.find?_cons_of_neg _ (by simp [ha])]
    apply ih
    rw [List.find?_eq_none]
    intro x hx
    exact (fun hpx => by simpa [hpx] using h x (List.mem_cons_of_mem a hx))

/-- Assignment makes the key read back the assigned value: the last
write wins. -/
theorem recGet_recInsert (r : Record) (k : JStr) (v : Value) :
    recGet (recInsert r k v) k = some v := by
  unfold recInsert
  split
  · next h =>
    unfold recGet
    rw [find?_map_insert]
    have hex : ∃ kv ∈ r, (kv.1 == k) = true := by
      unfold recHas at h
      simpa using List.any_eq_true.mp h
    obtain ⟨kv, hmem, hkv⟩ := hex
    have hsome : (r.find? (fun kv => kv.1 == k)).isSome = true := by
      rw [List.find?_isSome]
      exact ⟨kv, hmem, hkv⟩
    obtain ⟨kv', hkv'⟩ := Option.isSome_iff_exists.mp hsome
    rw [hkv']
    rfl
  · next h =>
    unfold recGet
    have hnone : r.find? (fun kv => kv.1 == k) = none := by
      rw [List.find?_eq_none]
      intro x hx hpx
      unfold recHas at h
      exact h (List.any_eq_true.mpr ⟨x, hx, hpx⟩)
    rw [find?_append_none _ r _ hnone,
      @List.find?_cons_of_pos _ (fun kv => kv.1 == k) (k, v) [] (beq_self_eq_true k)]
    rfl

/-- Assignment to an existing key keeps the key sequence; a new key is
appended at the end: first appearance fixes the position. -/
theorem keys_recInsert (r : Record) (k : JStr) (v : Value) :
    (recInsert r k v).map Prod.fst =
      if recHas r k = true then r.map Prod.fst else r.map Prod.fst ++ [k] := by
  unfold recInsert
  split
  · rw [List.map_map]
    apply List.map_congr_left
    intro kv _
    by_cases hk : (kv.1 == k) = true
    · rw [Function.comp_apply, if_pos hk]
    · rw [Function.comp_apply, if_neg hk]
  · rw [List.map_append]
    rfl

/-- Assignment never touches the value of a different key. -/
theorem recGet_recInsert_other (r : Record) (k k' : JStr) (v : Value) (hne : k' ≠ k) :
    recGet (recInsert r k v) k' = recGet r k' := by
  unfold recInsert
  split
  · next h =>
    unfold recGet
    congr 1
    clear h
    induction r with
    | nil => rfl
    | cons kv rest ih =>
      obtain ⟨k1, v1⟩ := kv
      by_cases hk : k1 = k
      · subst hk
        have hne2 : (k1 == k') = false := by
          simp
          exact fun hc => hne hc.symm
        simp only [List.map_cons, if_pos (beq_self_eq_true k1)]
        rw [List.find?_cons_of_neg _ (by simp [hne2]),
          List.find?_cons_of_neg _ (by simp [hne2])]
        exact ih
      · have hkb : (k1 == k) = false := by simpa using hk
        simp only [List.map_cons, hkb, Bool.false_eq_true, if_false]
        by_cases hk' : (k1 == k') = true
        · rw [List.find?_cons_of_pos _ (by simp [hk']),
            List.find?_cons_of_pos _ (by simp [hk'])]
        · rw [List.find?_cons_of_neg _ (by simp [hk']),
            List.find?_cons_of_neg _ (by simp [hk'])]
          exact ih
  · next h =>
    unfold recGet
    clear h
    have hlast : ((k, v).1 == k') = false := by
      simp
      exact fun hc => hne hc.symm
    cases hf : r.find? (fun kv => kv.1 == k') with
    | none =>
      rw [find?_append_none _ r _ hf]
      rw [@List.find?_cons_of_neg _ (fun kv => kv.1 == k') (k, v) [] (by simp [hlast])]
      rfl
    | some kv =>
      have hkeep : ((r ++ [(k, v)]).find? (fun kv => kv.1 == k')) = some kv := by
        clear hlast hne
        induction r with
        | nil => simp at hf
        | cons a rest ih =>
          rw [List.cons_append]
          by_cases ha : (a.1 == k') = true
          · rw [@List.find?_cons_of_pos _ (fun kv => kv.1 == k') a rest ha] at hf
            rw [@List.find?_cons_of_pos _ (fun kv => kv.1 == k') a (rest ++ [(k, v)]) ha]
            exact hf
          · rw [@List.find?_cons_of_neg _ (fun kv => kv.1 == k') a rest (by simp [ha])] at hf
            rw [@List.find?_cons_of_neg _ (fun kv => kv.1 == k') a (rest ++ [(k, v)])
              (by simp [ha])]
            exact ih hf
      rw [hkeep]

/-- When no key is an array-index string, the iteration order is the
insertion order. -/
theorem jsKeys_no_index (r : Record)
    (h : ∀ k ∈ r.map Prod.fst, isArrayIndexKey k = false) :
    jsKeys r = r.map Prod.fst := by
  simp only [jsKeys]
  have h1 : (r.map Prod.fst).filter isArrayIndexKey = [] := by
    rw [List.filter_eq_nil_iff]
    intro a ha
    simp [h a ha]
  have h2 : (r.map Prod.fst).filter (fun k => !isArrayIndexKey k) = r.map Prod.fst := by
    rw [List.filter_eq_self]
    intro a ha
    simp [h a ha]
  rw [h1, h2]
  simp [sortKeysNum]

/-- On a string of length at least two, `substring(1, length - 1)`
strips exactly the first and last character. -/
theorem jsSubstring_strip (v : JStr) (h : 2 ≤ v.length) :
    jsSubstring v 1 ((v.length : Int) - 1) = (v.drop 1).dropLast := by
  simp only [jsSubstring]
  have h1 : (min (max (1 : Int) 0) (v.length : Int)).toNat = 1 := by omega
  have h2 : (min (max ((v.length : Int) - 1) 0) (v.length : Int)).toNat = v.length - 1 := by
    omega
  rw [h1, h2]
  have h3 : min 1 (v.length - 1) = 1 := by omega
  have h4 : max 1 (v.length - 1) = v.length - 1 := by omega
  rw [h3, h4, List.dropLast_eq_take]
  simp only [List.length_drop]

/-- One extractor step either leaves the emitted blocks unchanged or
appends exactly one block. -/
theorem extractStep_blocks (kw : JStr) (st : ExtState) (line : JStr) :
    (extractStep kw st line).blocks = st.blocks ∨
      ∃ b, (extractStep kw st line).blocks = st.blocks ++ [b] := by
  unfold extractStep
  repeat' split
  all_goals try simp
  all_goals split <;> simp

/-- Processing further lines only ever appends to the emitted blocks. -/
theorem extractRun_blocks_ext (kw : JStr) :
    ∀ (post : List JStr) (st : ExtState),
      ∃ ext, (List.foldl (extractStep kw) st post).blocks = st.blocks ++ ext := by
  intro post
  induction post with
  | nil => exact fun st => ⟨[], by simp⟩
  | cons l rest ih =>
    intro st
    rw [List.foldl_cons]
    obtain ⟨ext, hext⟩ := ih (extractStep kw st l)
    rcases extractStep_blocks kw st l with h | ⟨b, h⟩
    · exact ⟨ext, by rw [hext, h]⟩
    · exact ⟨b :: ext, by rw [hext, h]; simp⟩

/-! ### The claims -/

/-- A demonstration record with composite tuple `A` (first occurrence). -/
def recA1 : Record := [(js "id", Value.str (js "A")), (js "n", Value.str (js "1"))]

/-- A second, distinct record with composite tuple `A`. -/
def recA2 : Record := [(js "id", Value.str (js "A")), (js "n", Value.str (js "2"))]

/-- A record with composite tuple `B`. -/
def recB : Record := [(js "id", Value.str (js "B"))]

/-- A third, distinct record with composite tuple `A`, separated from
the first two by `recB`. -/
def recA3 : Record := [(js "id", Value.str (js "A")), (js "n", Value.str (js "3"))]

/-- Claim C1, as stated, is false for the `-D` filter of the first
variant (lines 300-305): on the record sequence with key tuples
`[A, A, B, A]` it keeps only `[A, B]` — the final record is dropped
although its tuple `A` differs from the immediately preceding kept
record's tuple `B`, because the filter compares against the set of all
composites seen so far. -/
theorem claim_C1_counterexample :
    dedupCompositeSet [js "id"] [recA1, recA2, recB, recA3] = [recA1, recB] ∧
    (dedupCompositeSet [js "id"] [recA1, recA2, recB, recA3]).map (compositeV1 [js "id"]) =
      [js "A", js "B"] ∧
    [js "A", js "B"] ≠ [js "A", js "B", js "A"] ∧
    compositeV1 [js "id"] recA3 = js "A" ∧
    compositeV1 [js "id"] recB = js "B" ∧
    js "A" ≠ js "B" := by
  exact ⟨rfl, rfl, by decide, rfl, rfl, by decide⟩

/-- Claim C1, amended: the `-D` filter of the second variant
(lines 601-618) is adjacency-based — on key tuples `[A, A, B, A]` it
yields `[A, B, A]`, and in general a record carrying all the discard
keys is dropped exactly when its composite equals the immediately
preceding record's composite; the first variant (lines 300-305)
instead deduplicates against all previously seen composites and yields
`[A, B]`. -/
theorem claim_C1_amended :
    dedupConsecutive [js "id"] [recA1, recA2, recB, recA3] = [recA1, recB, recA3] ∧
    (dedupConsecutive [js "id"] [recA1, recA2, recB, recA3]).map (compositeV2 [js "id"]) =
      [js "A", js "B", js "A"] ∧
    dedupCompositeSet [js "id"] [recA1, recA2, recB, recA3] = [recA1, recB] ∧
    (∀ (ks : List JStr) (r1 r2 : Record),
      ks.all (fun k => recHas r1 k) = true →
      ks.all (fun k => recHas r2 k) = true →
      dedupConsecutive ks [r1, r2] =
        if compositeV2 ks r2 = compositeV2 ks r1 then [r1] else [r1, r2]) := by
  refine ⟨rfl, rfl, rfl, ?_⟩
  intro ks r1 r2 h1 h2
  by_cases hc : compositeV2 ks r2 = compositeV2 ks r1
  · simp [dedupConsecutive, dedupConsecutiveStep, h1, h2, hc]
  · simp [dedupConsecutive, dedupConsecutiveStep, h1, h2, hc]

/-- Witness for C1's amended claim at a concrete input. -/
theorem claim_C1_amended_witness :
    dedupConsecutive [js "id"] [recA1, recB] =
      (if compositeV2 [js "id"] recB = compositeV2 [js "id"] recA1 then [recA1]
       else [recA1, recB]) :=
  claim_C1_amended.2.2.2 [js "id"] recA1 recB (by decide) (by decide)

/-- Claim C2: a stream that ends while the extractor is still recording
contributes no output block — `extractRecords` returns only the blocks
completed before end of input (a trailing stream fragment can only add
whole completed blocks after the earlier ones, never disturb or flush
anything), and on the unterminated stream `["Tag {", "a: 1"]` the
machine ends recording, with a non-empty buffer, yet emits zero records
and raises no error. -/
theorem claim_C2 :
    (∀ (kw : JStr) (lines : List JStr), extractRecords lines kw = (extractRun kw lines).blocks) ∧
    (∀ (kw : JStr) (pre post : List JStr), ∃ ext : List JStr,
      extractRecords (pre ++ post) kw = extractRecords pre kw ++ ext) ∧
    extractRecords [js "Tag \x7b", js "a: 1"] (js "Tag") = [] ∧
    (extractRun (js "Tag") [js "Tag \x7b", js "a: 1"]).recordStarted = true ∧
    (extractRun (js "Tag") [js "Tag \x7b", js "a: 1"]).currentBlock = js "\x7b\na: 1" := by
  refine ⟨fun _ _ => rfl, ?_, by decide, by decide, by decide⟩
  intro kw pre post
  unfold extractRecords extractRun
  rw [List.foldl_append]
  exact extractRun_blocks_ext kw post _

/-- Claim C3: every block emitted by the extractor has as many `{` as
`}` characters, and a stream made of `n` complete, non-overlapping
trigger-prefixed record segments (with junk lines in between) produces
exactly `n` blocks. -/
theorem claim_C3 :
    (∀ (lines : List JStr) (kw : JStr) (b : JStr), b ∈ extractRecords lines kw →
      b.count '{' = b.count '}') ∧
    (∀ (lines : List JStr) (kw : JStr) (n : Nat), StreamN kw lines n →
      (extractRecords lines kw).length = n) :=
  ⟨fun lines kw b hb => extractRecords_balanced lines kw b hb,
   fun lines kw n h => extractRecords_countN lines kw n h⟩

/-- Witness for C3 at a concrete stream with two records and one junk
line. -/
theorem claim_C3_witness :
    (js "\x7b\na: 1\n\x7d").count '{' = (js "\x7b\na: 1\n\x7d").count '}' ∧
    (extractRecords [js "Tag \x7b", js "a: 1", js "\x7d", js "junk", js "Tag \x7b x: 2 \x7d"]
      (js "Tag")).length = 2 := by
  constructor
  · exact claim_C3.1 [js "Tag \x7b", js "a: 1", js "\x7d"] (js "Tag") (js "\x7b\na: 1\n\x7d")
      (by decide)
  · have h0 : StreamN (js "Tag") [] 0 := StreamN.nil
    have h1 : StreamN (js "Tag") ([js "Tag \x7b x: 2 \x7d"] ++ []) 1 :=
      StreamN.seg (by decide) h0
    have h2 : StreamN (js "Tag") (js "junk" :: ([js "Tag \x7b x: 2 \x7d"] ++ [])) 1 :=
      StreamN.junk (by decide) h1
    have h3 : StreamN (js "Tag")
        ([js "Tag \x7b", js "a: 1", js "\x7d"] ++ js "junk" :: ([js "Tag \x7b x: 2 \x7d"] ++ []))
        2 := StreamN.seg (by decide) h2
    exact claim_C3.2 _ (js "Tag") 2 h3

/-- Claim C4: a top-level fragment with no `:` is silently skipped by
the object loop — it adds no key and the remaining fragments are still
parsed — and concretely `{a: 1, junk, b: 2}` parses to a record with
exactly the keys `a` and `b`. -/
theorem claim_C4 :
    (∀ (pv : JStr → Option Value) (part : JStr) (rest : List JStr) (acc : Record),
      jsIndexOf part ':' = none → objLoopGo pv (part :: rest) acc = objLoopGo pv rest acc) ∧
    parseObject (js "\x7ba: 1, junk, b: 2\x7d") =
      [(js "a", Value.num (JSNum.finite (intRat 1))),
       (js "b", Value.num (JSNum.finite (intRat 2)))] := by
  constructor
  · intro pv part rest acc h
    simp only [objLoopGo, h]
  · rfl

/-- Witness for C4's skip rule at a concrete colon-free fragment. -/
theorem claim_C4_witness :
    objLoopGo (parseValueF 1) (js "junk" :: []) [] = objLoopGo (parseValueF 1) [] [] :=
  claim_C4.1 (parseValueF 1) (js "junk") [] [] (by decide)

/-- Claim C5, as stated, is false under JavaScript object semantics:
object keys that are canonical array indices are iterated before the
other keys, in ascending numeric order, not in source order.  On
`{b: 1, 0: 2}` the source order of first appearance is `[b, 0]`, but
the record's iteration order is `[0, b]`. -/
theorem claim_C5_counterexample :
    jsKeys (parseObject (js "\x7bb: 1, 0: 2\x7d")) = [js "0", js "b"] ∧
    (parseObject (js "\x7bb: 1, 0: 2\x7d")).map Prod.fst = [js "b", js "0"] ∧
    [js "0", js "b"] ≠ [js "b", js "0"] :=
  ⟨by decide, by decide, by decide⟩

/-- Claim C5, amended: duplicate keys take the value of their last
occurrence while keeping the position of their first occurrence, and
for records none of whose keys is a canonical array-index string the
iteration order equals the order of first appearance in the source
text; array-index keys are instead iterated first, numerically. -/
theorem claim_C5_amended :
    (∀ (r : Record) (k : JStr) (v : Value), recGet (recInsert r k v) k = some v) ∧
    (∀ (r : Record) (k k' : JStr) (v : Value), k' ≠ k →
      recGet (recInsert r k v) k' = recGet r k') ∧
    (∀ (r : Record) (k : JStr) (v : Value), (recInsert r k v).map Prod.fst =
      if recHas r k = true then r.map Prod.fst else r.map Prod.fst ++ [k]) ∧
    (∀ r : Record, (∀ k ∈ r.map Prod.fst, isArrayIndexKey k = false) →
      jsKeys r = r.map Prod.fst) ∧
    parseObject (js "\x7bb: 1, a: 2, b: 3\x7d") =
      [(js "b", Value.num (JSNum.finite (intRat 3))),
       (js "a", Value.num (JSNum.finite (intRat 2)))] ∧
    jsKeys (parseObject (js "\x7bb: 1, a: 2, b: 3\x7d")) = [js "b", js "a"] :=
  ⟨recGet_recInsert, recGet_recInsert_other, keys_recInsert, jsKeys_no_index, rfl, by decide⟩

/-- Witness for C5's amended claim at concrete records. -/
theorem claim_C5_witness :
    recGet (recInsert [] (js "x") (Value.bool true)) (js "x") = some (Value.bool true) ∧
    jsKeys [(js "x", Value.bool true)] = [js "x"] := by
  constructor
  · exact claim_C5_amended.1 [] (js "x") (Value.bool true)
  · exact claim_C5_amended.2.2.2.1 [(js "x", Value.bool true)] (by decide)

/-- Claim C6: the scalar coercer trims its input; a fragment wrapped in
matching double or single quotes loses exactly one layer of quotes and
stays a string (no escape processing); otherwise a fragment accepted by
the `Number` conversion becomes that number; otherwise exactly the
tokens `true` / `false` become booleans; anything else is returned as
the trimmed string.  In particular `true` is Boolean true, `"3"` is the
string `3`, `3.5` is the number 7/2, and `foo` is the string `foo`. -/
theorem claim_C6 :
    (∀ s : JStr,
      ((jsStartsWith (jsTrim s) [dq] && jsEndsWith (jsTrim s) [dq]) ||
       (jsStartsWith (jsTrim s) [sq] && jsEndsWith (jsTrim s) [sq])) = true →
      2 ≤ (jsTrim s).length →
      filterValue s = Value.str (((jsTrim s).drop 1).dropLast)) ∧
    (∀ (s : JStr) (q : JSNum),
      ((jsStartsWith (jsTrim s) [dq] && jsEndsWith (jsTrim s) [dq]) ||
       (jsStartsWith (jsTrim s) [sq] && jsEndsWith (jsTrim s) [sq])) = false →
      jsToNumber (jsTrim s) = some q →
      filterValue s = Value.num q) ∧
    (∀ s : JStr,
      ((jsStartsWith (jsTrim s) [dq] && jsEndsWith (jsTrim s) [dq]) ||
       (jsStartsWith (jsTrim s) [sq] && jsEndsWith (jsTrim s) [sq])) = false →
      jsToNumber (jsTrim s) = none →
      jsTrim s = js "true" →
      filterValue s = Value.bool true) ∧
    (∀ s : JStr,
      ((jsStartsWith (jsTrim s) [dq] && jsEndsWith (jsTrim s) [dq]) ||
       (jsStartsWith (jsTrim s) [sq] && jsEndsWith (jsTrim s) [sq])) = false →
      jsToNumber (jsTrim s) = none →
      jsTrim s = js "false" →
      filterValue s = Value.bool false) ∧
    (∀ s : JStr,
      ((jsStartsWith (jsTrim s) [dq] && jsEndsWith (jsTrim s) [dq]) ||
       (jsStartsWith (jsTrim s) [sq] && jsEndsWith (jsTrim s) [sq])) = false →
      jsToNumber (jsTrim s) = none →
      jsTrim s ≠ js "true" →
      jsTrim s ≠ js "false" →
      filterValue s = Value.str (jsTrim s)) ∧
    filterValue (js "true") = Value.bool true ∧
    filterValue (js "\x223\x22") = Value.str (js "3") ∧
    filterValue (js "3.5") = Value.num (JSNum.finite (normRat 7 2)) ∧
    filterValue (js "foo") = Value.str (js "foo") := by
  refine ⟨?_, ?_, ?_, ?_, ?_, rfl, rfl, rfl, rfl⟩
  · intro s hq hlen
    simp only [filterValue, if_pos hq]
    rw [jsSubstring_strip (jsTrim s) hlen]
  · intro s q hq hnum
    have hq' : ¬(((jsStartsWith (jsTrim s) [dq] && jsEndsWith (jsTrim s) [dq]) ||
        (jsStartsWith (jsTrim s) [sq] && jsEndsWith (jsTrim s) [sq])) = true) := by
      simp [hq]
    simp only [filterValue, hnum]
    rw [if_neg hq']
  · intro s hq hnum htrue
    have hq' : ¬(((jsStartsWith (jsTrim s) [dq] && jsEndsWith (jsTrim s) [dq]) ||
        (jsStartsWith (jsTrim s) [sq] && jsEndsWith (jsTrim s) [sq])) = true) := by
      simp [hq]
    simp only [filterValue, hnum]
    rw [if_neg hq', if_pos htrue]
  · intro s hq hnum hfalse
    have hq' : ¬(((jsStartsWith (jsTrim s) [dq] && jsEndsWith (jsTrim s) [dq]) ||
        (jsStartsWith (jsTrim s) [sq] && jsEndsWith (jsTrim s) [sq])) = true) := by
      simp [hq]
    have hnottrue : ¬jsTrim s = js "true" := by
      rw [hfalse]
      decide
    simp only [filterValue, hnum]
    rw [if_neg hq', if_neg hnottrue, if_pos hfalse]
  · intro s hq hnum htrue hfalse
    have hq' : ¬(((jsStartsWith (jsTrim s) [dq] && jsEndsWith (jsTrim s) [dq]) ||
        (jsStartsWith (jsTrim s) [sq] && jsEndsWith (jsTrim s) [sq])) = true) := by
      simp [hq]
    simp only [filterValue, hnum]
    rw [if_neg hq', if_neg htrue, if_neg hfalse]

/-- Witness for C6 at concrete inputs for each guarded branch. -/
theorem claim_C6_witness :
    filterValue (js " \x22ab\x22 ") = Value.str (js "ab") ∧
    filterValue (js " 12 ") = Value.num (JSNum.finite (intRat 12)) ∧
    filterValue (js " true ") = Value.bool true ∧
    filterValue (js " false ") = Value.bool false ∧
    filterValue (js " x y ") = Value.str (js "x y") := by
  refine ⟨?_, ?_, ?_, ?_, ?_⟩
  · exact claim_C6.1 (js " \x22ab\x22 ") (by decide) (by decide)
  · exact claim_C6.2.1 (js " 12 ") (JSNum.finite (intRat 12)) (by decide) (by decide)
  · exact claim_C6.2.2.1 (js " true ") (by decide) (by decide) (by decide)
  · exact claim_C6.2.2.2.1 (js " false ") (by decide) (by decide) (by decide)
  · exact claim_C6.2.2.2.2.1 (js " x y ") (by decide) (by decide) (by decide) (by decide)

/-- Claim C7: `splitTopLevel` splits only at commas at bracket depth 0
outside quotes (commas inside braces, brackets or quoted spans are kept
verbatim), every emitted segment is trimmed, and the trailing segment
is emitted only when non-empty after trimming. -/
theorem claim_C7 :
    (∀ (s : JStr) (p : JStr), p ∈ splitTopLevel s → jsTrim p = p) ∧
    splitTopLevel (js "a, \x7bb: 1, c: 2\x7d, [1,2]") =
      [js "a", js "\x7bb: 1, c: 2\x7d", js "[1,2]"] ∧
    splitTopLevel (js "\x22a,b\x22, [1,2], \x27p,q\x27") =
      [js "\x22a,b\x22", js "[1,2]", js "\x27p,q\x27"] ∧
    splitTopLevel (js "a, b ,") = [js "a", js "b"] :=
  ⟨fun s p hp => splitTopLevel_parts_trim s p hp, by decide, by decide, by decide⟩

/-- Witness for C7's trimming property at a concrete part. -/
theorem claim_C7_witness : jsTrim (js "a") = js "a" :=
  claim_C7.1 (js "a, b") (js "a") (by decide)

/-- Claim C8: the full pipeline on the single line
`Tag { a: 1, b: [1,2], c: { d: "x" } }` with trigger `Tag` yields
exactly one record, mapping `a` to the number 1, `b` to the number
array `[1, 2]`, and `c` to a nested record mapping `d` to the string
`x`. -/
theorem claim_C8 :
    runPipeline [js "Tag \x7b a: 1, b: [1,2], c: \x7b d: \x22x\x22 \x7d \x7d"] (js "Tag") =
      [[(js "a", Value.num (JSNum.finite (intRat 1))),
        (js "b", Value.arr [Value.num (JSNum.finite (intRat 1)),
          Value.num (JSNum.finite (intRat 2))]),
        (js "c", Value.obj [(js "d", Value.str (js "x"))])]] := rfl

/-- Claim C9: the value parser terminates on every input string — fuel
`length + 1` always suffices for `parseValue`, `parseObject` and
`parseArray`, and the fuel-free wrappers return exactly the value the
recursion produces. -/
theorem claim_C9 :
    ∀ s : JStr,
      (parseValueF (s.length + 1) s).isSome = true ∧
      parseValueF (s.length + 1) s = some (parseValue s) ∧
      (parseObjectGo (parseValueF (s.length + 1)) s).isSome = true ∧
      (parseArrayGo (parseValueF (s.length + 1)) s).isSome = true := by
  intro s
  have hsv : (parseValueF (s.length + 1) s).isSome = true :=
    parseValueF_isSome (s.length + 1) s (by omega)
  refine ⟨hsv, ?_, ?_, ?_⟩
  · obtain ⟨v, hv⟩ := Option.isSome_iff_exists.mp hsv
    rw [hv]
    unfold parseValue
    rw [hv]
    rfl
  · exact parseObjectGo_isSome (parseValueF (s.length + 1)) (s.length + 1)
      (parseValueF_isSome _) s (by omega)
  · rw [parseArrayGo]
    split
    · simp
    · apply arrLoopGo_isSome _ (s.length + 1) (parseValueF_isSome _)
      intro p hp
      have hb := splitTopLevel_parts_length _ p hp
      have hw := stripWrap_length_le '[' ']' s
      omega

/-- Claim C10: a fragment that is empty or all whitespace trims to the
empty string, which the `Number` conversion maps to 0; `filterValue`
therefore returns the number 0, not a string. -/
theorem claim_C10 :
    (∀ s : JStr, s.all jsIsWhite = true → filterValue s = Value.num (JSNum.finite (intRat 0))) ∧
    filterValue [] = Value.num (JSNum.finite (intRat 0)) ∧
    filterValue (js "   ") = Value.num (JSNum.finite (intRat 0)) := by
  refine ⟨?_, rfl, rfl⟩
  intro s h
  have ht : jsTrim s = [] := jsTrim_all_white s h
  simp only [filterValue, ht]
  rfl

/-- Witness for C10 at a concrete whitespace fragment. -/
theorem claim_C10_witness : filterValue (js "  ") = Value.num (JSNum.finite (intRat 0)) :=
  claim_C10.1 (js "  ") (by decide)

end LogParser
